import Mathlib

/-!
Shallow embedding of `src/IntensitySegments.js`.

The JavaScript class `IntensitySegments` keeps `this.segments`, a `Map` from
integer positions to integer intensity values.  A JS `Map` is an
insertion-ordered collection of key-value pairs with unique keys; we model it
as a `List (Int × Int)` together with the three `Map` primitives the source
uses: `get` (`segGet`), `has`-style membership (`hasKey`, implicit in the JS
`get(i) || 0` idiom via `set`'s update-or-append behavior) and `set`
(`segSet`, which overwrites in place when the key is present and appends
otherwise, exactly like `Map.prototype.set`).

`add` and `set` first validate (`Number.isInteger(from)`,
`Number.isInteger(to)`, `from > to`) and throw before touching the map;
then they run `for (let i = from; i <= to; i++)`, an *inclusive* loop, which
we model as a fold over `rangeInts from to = [from, from+1, …, to]`.
Validation takes JS numbers; we model those as rationals (`ℚ`), on which
`Number.isInteger` is the integrality test `den = 1`.

`toString` sorts the keys numerically ascending and joins
`"<key>: <value>"` with `", "`.
-/

/-- The state of `this.segments`: an insertion-ordered list of
(position, value) pairs with unique keys, modelling a JS `Map`. -/
abbrev SegMap : Type := List (Int × Int)

/-- Model of `Map.prototype.get`: the value stored at key `q`, if any. -/
def segGet : SegMap → Int → Option Int
  | [], _ => none
  | (k, v) :: m, q => if q = k then some v else segGet m q

/-- Whether key `q` is present in the map. -/
def hasKey : SegMap → Int → Bool
  | [], _ => false
  | (k, _) :: m, q => q = k || hasKey m q

/-- Model of `Map.prototype.set`: overwrite in place when the key is present,
append otherwise (JS `Map` keeps insertion order).  Keys of a JS `Map`
are unique, so overwriting the first occurrence is overwriting the only
occurrence. -/
def segSet : SegMap → Int → Int → SegMap
  | [], k, v => [(k, v)]
  | (a, b) :: m, k, v =>
      if a = k then (k, v) :: m else (a, b) :: segSet m k v

/-- The stored keys, in insertion order. -/
def keys (m : SegMap) : List Int := m.map Prod.fst

/-- The effective intensity at a point: the stored value, or 0 when the
point was never stored — the `this.segments.get(i) || 0` idiom of the
source, and the reading under which "all intensity values are initialized
to 0" (source doc comment). -/
def eff (m : SegMap) (p : Int) : Int := (segGet m p).getD 0

/-- The integers visited by `for (let i = from; i <= to; i++)`:
`from, from+1, …, to` (empty when `from > to`). -/
def rangeInts (f t : Int) : List Int :=
  List.map (fun n : Nat => f + (n : Int)) (List.range (t - f + 1).toNat)

/-- The loop body of `add` applied over the whole inclusive range:
`this.segments.set(i, (this.segments.get(i) || 0) + amount)` for each
`i` in `[from, to]`. -/
def addCore (m : SegMap) (f t a : Int) : SegMap :=
  (rangeInts f t).foldl (fun s i => segSet s i ((segGet s i).getD 0 + a)) m

/-- The loop body of `set` applied over the whole inclusive range:
`this.segments.set(i, amount)` for each `i` in `[from, to]`. -/
def setCore (m : SegMap) (f t a : Int) : SegMap :=
  (rangeInts f t).foldl (fun s i => segSet s i a) m

/-- The single error kind the source can throw:
`"Invalid range: ..."`. -/
inductive SegError : Type
  | invalidRange
deriving DecidableEq

/-- Model of `Number.isInteger` on a JS number, modelled on ℚ. -/
def isIntegerQ (q : ℚ) : Prop := q.den = 1

instance (q : ℚ) : Decidable (isIntegerQ q) :=
  inferInstanceAs (Decidable (q.den = 1))

/-- Model of `IntensitySegments.add(from, to, amount)`: validate, then run the
inclusive loop.  A thrown error carries the map as it stands at the throw,
which is before any mutation. -/
def IntensitySegments.add (m : SegMap) (f t : ℚ) (a : Int) :
    Except (SegError × SegMap) SegMap :=
  if ¬ isIntegerQ f ∨ ¬ isIntegerQ t ∨ f > t then .error (.invalidRange, m)
  else .ok (addCore m f.num t.num a)

/-- Model of `IntensitySegments.set(from, to, amount)`: validate, then run the
inclusive loop. -/
def IntensitySegments.set (m : SegMap) (f t : ℚ) (a : Int) :
    Except (SegError × SegMap) SegMap :=
  if ¬ isIntegerQ f ∨ ¬ isIntegerQ t ∨ f > t then .error (.invalidRange, m)
  else .ok (setCore m f.num t.num a)

/-- Model of `Array.from(this.segments.keys()).sort((a, b) => a - b)`: the stored
keys in ascending numeric order. -/
def sortedKeys (m : SegMap) : List Int :=
  List.insertionSort (fun a b => a ≤ b) (keys m)

/-- One `` `${key}: ${this.segments.get(key)}` `` entry. -/
def entryStr (m : SegMap) (k : Int) : String :=
  ToString.toString k ++ ": " ++
    (match segGet m k with
      | some v => ToString.toString v
      | none => "undefined")

/-- Model of `IntensitySegments.toString()`: sorted entries joined with `", "`. -/
def IntensitySegments.toString (m : SegMap) : String :=
  String.intercalate ", " ((sortedKeys m).map (entryStr m))

/-- The rendered sequence of (position, value) pairs, in ascending key
order — the enumerable form of `toString`'s output. -/
def renderPairs (m : SegMap) : List (Int × Int) :=
  (sortedKeys m).map (fun k => (k, eff m k))

/-- The states reachable from the empty structure by valid calls. -/
inductive Reachable : SegMap → Prop
  | empty : Reachable []
  | addStep (m : SegMap) (f t a : Int) :
      Reachable m → f ≤ t → Reachable (addCore m f t a)
  | setStep (m : SegMap) (f t a : Int) :
      Reachable m → f ≤ t → Reachable (setCore m f t a)

/-- Canonical form of a rendered sequence, as the spec demands it:
no entry's value repeats the previous entry's value, and the first
entry's value is not the implied predecessor value 0. -/
def canonicalForm (l : List (Int × Int)) : Prop :=
  List.Chain' (fun p q => p.2 ≠ q.2) l ∧
    ∀ p : Int × Int, l.head? = some p → p.2 ≠ 0

/-! ### Basic lemmas about the map primitives -/

theorem segGet_append (m₁ m₂ : SegMap) (k : Int) :
    segGet (m₁ ++ m₂) k = (segGet m₁ k).orElse (fun _ => segGet m₂ k) := by
  induction m₁ with
  | nil => simp [segGet]
  | cons p m ih =>
    obtain ⟨a, b⟩ := p
    by_cases h : k = a <;> simp [segGet, h, ih]

theorem hasKey_eq_isSome (m : SegMap) (k : Int) :
    hasKey m k = (segGet m k).isSome := by
  induction m with
  | nil => simp [hasKey, segGet]
  | cons p m ih =>
    obtain ⟨a, b⟩ := p
    by_cases h : k = a <;> simp [hasKey, segGet, h, ih]

theorem segGet_segSet (m : SegMap) (k v q : Int) :
    segGet (segSet m k v) q = if q = k then some v else segGet m q := by
  induction m with
  | nil =>
    by_cases hq : q = k <;> simp [segSet, segGet, hq]
  | cons p m ih =>
    obtain ⟨a, b⟩ := p
    by_cases hak : a = k
    · subst hak
      by_cases hq : q = a <;> simp [segSet, segGet, hq]
    · by_cases hq : q = a
      · have hqk : ¬ q = k := by rw [hq]; exact hak
        simp [segSet, segGet, hak, hq, hqk]
      · simp [segSet, segGet, hak, hq, ih]

theorem keys_segSet (m : SegMap) (k v : Int) :
    keys (segSet m k v) = if hasKey m k then keys m else keys m ++ [k] := by
  induction m with
  | nil => simp [segSet, keys, hasKey]
  | cons p m ih =>
    obtain ⟨a, b⟩ := p
    by_cases hak : a = k
    · subst hak
      simp [segSet, keys, hasKey]
    · have hka : ¬ k = a := fun h => hak h.symm
      have ih' := ih
      by_cases hk : hasKey m k <;>
        [simp [keys, hk] at ih'; simp [keys, hk] at ih'] <;>
        simp [segSet, keys, hasKey, hak, hka, hk, ih']

theorem mem_keys_iff_isSome (m : SegMap) (k : Int) :
    k ∈ keys m ↔ (segGet m k).isSome := by
  induction m with
  | nil => simp [keys, segGet]
  | cons p m ih =>
    obtain ⟨a, b⟩ := p
    have hc : keys ((a, b) :: m) = a :: keys m := rfl
    rw [hc, List.mem_cons]
    by_cases h : k = a <;> simp [segGet, h, ih]

theorem hasKey_iff_mem_keys (m : SegMap) (k : Int) :
    hasKey m k = true ↔ k ∈ keys m := by
  rw [hasKey_eq_isSome, mem_keys_iff_isSome]

/-! ### The loop range -/

theorem mem_rangeInts (f t k : Int) :
    k ∈ rangeInts f t ↔ f ≤ k ∧ k ≤ t := by
  unfold rangeInts
  rw [List.mem_map]
  constructor
  · rintro ⟨n, hn, rfl⟩
    rw [List.mem_range] at hn
    omega
  · rintro ⟨h₁, h₂⟩
    refine ⟨(k - f).toNat, ?_, ?_⟩
    · rw [List.mem_range]; omega
    · omega

theorem nodup_rangeInts (f t : Int) : (rangeInts f t).Nodup := by
  unfold rangeInts
  refine List.Nodup.map ?_ (List.nodup_range _)
  intro a b h
  have hab : f + (a : Int) = f + (b : Int) := h
  omega

theorem length_rangeInts (f t : Int) :
    (rangeInts f t).length = (t - f + 1).toNat := by
  unfold rangeInts
  rw [List.length_map, List.length_range]

/-! ### Effect of the loops on lookups -/

theorem segGet_foldl_add (a : Int) (l : List Int) (hl : l.Nodup) :
    ∀ (m : SegMap) (k : Int),
      segGet (l.foldl (fun s i => segSet s i ((segGet s i).getD 0 + a)) m) k =
        if k ∈ l then some (eff m k + a) else segGet m k := by
  induction l with
  | nil => intro m k; simp
  | cons i l ih =>
    intro m k
    have hil : i ∉ l := (List.nodup_cons.mp hl).1
    have hl' : l.Nodup := (List.nodup_cons.mp hl).2
    simp only [List.foldl_cons]
    rw [ih hl' (segSet m i ((segGet m i).getD 0 + a)) k]
    by_cases hkl : k ∈ l
    · have hki : k ≠ i := fun h => hil (h ▸ hkl)
      simp [hkl, hki, List.mem_cons, eff, segGet_segSet]
    · by_cases hki : k = i
      · subst hki
        simp [hkl, eff, segGet_segSet]
      · simp [hkl, hki, segGet_segSet]

theorem segGet_foldl_set (a : Int) (l : List Int) :
    ∀ (m : SegMap) (k : Int),
      segGet (l.foldl (fun s i => segSet s i a) m) k =
        if k ∈ l then some a else segGet m k := by
  induction l with
  | nil => intro m k; simp
  | cons i l ih =>
    intro m k
    simp only [List.foldl_cons]
    rw [ih (segSet m i a) k]
    by_cases hkl : k ∈ l
    · simp [hkl, List.mem_cons]
    · by_cases hki : k = i
      · subst hki
        simp [hkl, segGet_segSet]
      · simp [hkl, hki, segGet_segSet]

theorem segGet_addCore (m : SegMap) (f t a k : Int) :
    segGet (addCore m f t a) k =
      if f ≤ k ∧ k ≤ t then some (eff m k + a) else segGet m k := by
  rw [addCore, segGet_foldl_add a _ (nodup_rangeInts f t)]
  simp only [mem_rangeInts]

theorem segGet_setCore (m : SegMap) (f t a k : Int) :
    segGet (setCore m f t a) k =
      if f ≤ k ∧ k ≤ t then some a else segGet m k := by
  rw [setCore, segGet_foldl_set]
  simp only [mem_rangeInts]

theorem eff_addCore (m : SegMap) (f t a k : Int) :
    eff (addCore m f t a) k =
      if f ≤ k ∧ k ≤ t then eff m k + a else eff m k := by
  unfold eff
  rw [segGet_addCore]
  by_cases h : f ≤ k ∧ k ≤ t <;> simp [h, eff]

theorem eff_setCore (m : SegMap) (f t a k : Int) :
    eff (setCore m f t a) k =
      if f ≤ k ∧ k ≤ t then a else eff m k := by
  unfold eff
  rw [segGet_setCore]
  by_cases h : f ≤ k ∧ k ≤ t <;> simp [h, eff]

/-! ### Effect of the loops on the key set -/

theorem mem_keys_addCore (m : SegMap) (f t a k : Int) :
    k ∈ keys (addCore m f t a) ↔ (f ≤ k ∧ k ≤ t) ∨ k ∈ keys m := by
  rw [mem_keys_iff_isSome, segGet_addCore, mem_keys_iff_isSome]
  by_cases h : f ≤ k ∧ k ≤ t <;> simp [h]

theorem mem_keys_setCore (m : SegMap) (f t a k : Int) :
    k ∈ keys (setCore m f t a) ↔ (f ≤ k ∧ k ≤ t) ∨ k ∈ keys m := by
  rw [mem_keys_iff_isSome, segGet_setCore, mem_keys_iff_isSome]
  by_cases h : f ≤ k ∧ k ≤ t <;> simp [h]

/-! ### Uniqueness of keys is preserved -/

theorem nodup_keys_segSet (m : SegMap) (k v : Int) (h : (keys m).Nodup) :
    (keys (segSet m k v)).Nodup := by
  rw [keys_segSet]
  by_cases hk : hasKey m k
  · simpa [hk] using h
  · have hmem : k ∉ keys m := fun hm => hk ((hasKey_iff_mem_keys m k).mpr hm)
    simp [hk, List.nodup_append, h, hmem]

theorem nodup_keys_foldl (g : SegMap → Int → Int) :
    ∀ (l : List Int) (m : SegMap), (keys m).Nodup →
      (keys (l.foldl (fun s i => segSet s i (g s i)) m)).Nodup := by
  intro l
  induction l with
  | nil => intro m h; simpa using h
  | cons i l ih =>
    intro m h
    simpa using ih (segSet m i (g m i)) (nodup_keys_segSet m i (g m i) h)

theorem nodup_keys_addCore (m : SegMap) (f t a : Int) (h : (keys m).Nodup) :
    (keys (addCore m f t a)).Nodup :=
  nodup_keys_foldl (fun s i => (segGet s i).getD 0 + a) (rangeInts f t) m h

theorem nodup_keys_setCore (m : SegMap) (f t a : Int) (h : (keys m).Nodup) :
    (keys (setCore m f t a)).Nodup :=
  nodup_keys_foldl (fun _ _ => a) (rangeInts f t) m h

theorem nodup_keys_of_reachable (m : SegMap) (h : Reachable m) :
    (keys m).Nodup := by
  induction h with
  | empty => simp [keys]
  | addStep m f t a _ _ ih => exact nodup_keys_addCore m f t a ih
  | setStep m f t a _ _ ih => exact nodup_keys_setCore m f t a ih

/-! ### Fresh keys are appended in loop order -/

theorem keys_foldl_fresh (g : SegMap → Int → Int) :
    ∀ (l : List Int), l.Nodup → ∀ (m : SegMap), (∀ i ∈ l, i ∉ keys m) →
      keys (l.foldl (fun s i => segSet s i (g s i)) m) = keys m ++ l := by
  intro l
  induction l with
  | nil => intro _ m _; simp
  | cons i l ih =>
    intro hnd m hfresh
    have hi : i ∉ keys m := hfresh i (List.mem_cons_self i l)
    have hkey : ¬ hasKey m i = true := fun hh => hi ((hasKey_iff_mem_keys m i).mp hh)
    have hstep : keys (segSet m i (g m i)) = keys m ++ [i] := by
      rw [keys_segSet]; simp [hkey]
    have hfresh' : ∀ j ∈ l, j ∉ keys (segSet m i (g m i)) := by
      intro j hj
      rw [hstep]
      intro hmem
      rcases List.mem_append.mp hmem with hjm | hji
      · exact hfresh j (List.mem_cons_of_mem i hj) hjm
      · have : j = i := by simpa using hji
        exact (List.nodup_cons.mp hnd).1 (this ▸ hj)
    have := ih (List.nodup_cons.mp hnd).2 (segSet m i (g m i)) hfresh'
    simp only [List.foldl_cons]
    rw [this, hstep]
    simp

theorem keys_addCore_empty (f t a : Int) :
    keys (addCore ([] : SegMap) f t a) = rangeInts f t := by
  have := keys_foldl_fresh (fun s i => (segGet s i).getD 0 + a) (rangeInts f t)
    (nodup_rangeInts f t) [] (by intro i _; simp [keys])
  simpa [keys] using this

theorem keys_setCore_empty (f t a : Int) :
    keys (setCore ([] : SegMap) f t a) = rangeInts f t := by
  have := keys_foldl_fresh (fun _ _ => a) (rangeInts f t)
    (nodup_rangeInts f t) [] (by intro i _; simp [keys])
  simpa [keys] using this

/-! ### The sorted key list and the rendered output -/

theorem sortedKeys_perm (m : SegMap) : List.Perm (sortedKeys m) (keys m) :=
  List.perm_insertionSort _ _

theorem mem_sortedKeys (m : SegMap) (k : Int) :
    k ∈ sortedKeys m ↔ k ∈ keys m :=
  (sortedKeys_perm m).mem_iff

theorem sorted_sortedKeys (m : SegMap) :
    List.Sorted (fun a b : Int => a ≤ b) (sortedKeys m) :=
  List.sorted_insertionSort _ _

theorem nodup_sortedKeys (m : SegMap) (h : (keys m).Nodup) :
    (sortedKeys m).Nodup :=
  (sortedKeys_perm m).nodup_iff.mpr h

theorem sortedKeys_strict (m : SegMap) (h : (keys m).Nodup) :
    List.Pairwise (fun a b : Int => a < b) (sortedKeys m) := by
  have hs := sorted_sortedKeys m
  have hn : (sortedKeys m).Pairwise (fun a b : Int => a ≠ b) :=
    nodup_sortedKeys m h
  exact List.Pairwise.imp₂ (fun a b hab hne => lt_of_le_of_ne hab hne) hs hn

theorem sortedKeys_eq_of_segGet_eq (m₁ m₂ : SegMap)
    (h₁ : (keys m₁).Nodup) (h₂ : (keys m₂).Nodup)
    (h : ∀ k, segGet m₁ k = segGet m₂ k) :
    sortedKeys m₁ = sortedKeys m₂ := by
  have hmem : ∀ k, k ∈ keys m₁ ↔ k ∈ keys m₂ := by
    intro k
    rw [mem_keys_iff_isSome, mem_keys_iff_isSome, h k]
  have hperm : List.Perm (keys m₁) (keys m₂) :=
    (List.perm_ext_iff_of_nodup h₁ h₂).mpr hmem
  have hp : List.Perm (sortedKeys m₁) (sortedKeys m₂) :=
    ((sortedKeys_perm m₁).trans hperm).trans (sortedKeys_perm m₂).symm
  exact List.eq_of_perm_of_sorted hp (sorted_sortedKeys m₁) (sorted_sortedKeys m₂)

theorem toString_eq_of_segGet_eq (m₁ m₂ : SegMap)
    (h₁ : (keys m₁).Nodup) (h₂ : (keys m₂).Nodup)
    (h : ∀ k, segGet m₁ k = segGet m₂ k) :
    IntensitySegments.toString m₁ = IntensitySegments.toString m₂ := by
  unfold IntensitySegments.toString
  rw [sortedKeys_eq_of_segGet_eq m₁ m₂ h₁ h₂ h]
  congr 1
  refine List.map_congr_left ?_
  intro k _
  unfold entryStr
  rw [h k]

/-! ### Membership of stored pairs -/

theorem segGet_some_mem (m : SegMap) (k v : Int) (h : segGet m k = some v) :
    (k, v) ∈ m := by
  induction m with
  | nil => simp [segGet] at h
  | cons p m ih =>
    obtain ⟨a, b⟩ := p
    by_cases hk : k = a
    · subst hk
      simp [segGet] at h
      simp [h]
    · simp [segGet, hk] at h
      exact List.mem_cons_of_mem _ (ih h)

theorem mem_keys_of_mem (m : SegMap) (k v : Int) (h : (k, v) ∈ m) :
    k ∈ keys m :=
  List.mem_map_of_mem Prod.fst h

theorem segGet_of_mem_nodup (m : SegMap) (k v : Int)
    (hnd : (keys m).Nodup) (h : (k, v) ∈ m) : segGet m k = some v := by
  induction m with
  | nil => simp at h
  | cons p m ih =>
    obtain ⟨a, b⟩ := p
    have hc : keys ((a, b) :: m) = a :: keys m := rfl
    rw [hc, List.nodup_cons] at hnd
    rcases List.mem_cons.mp h with heq | hmem
    · obtain ⟨h1, h2⟩ := Prod.mk.injEq .. ▸ heq
      subst h1; subst h2
      simp [segGet]
    · by_cases hk : k = a
      · subst hk
        exact absurd (mem_keys_of_mem m k v hmem) hnd.1
      · simp [segGet, hk]
        exact ih hnd.2 hmem

/-! ### Claim C1: effect of `add` on effective values -/

/-- Claim C1 as stated is false on the code: `add(0, 0, 5)` changes the
effective value at position `0`, which is `to` and lies outside the
half-open range `[0, 0)`; the loop of `add` is inclusive of `to`. -/
theorem add_changes_value_at_to :
    eff (addCore [] 0 0 5) 0 ≠ eff ([] : SegMap) 0 ∧
      eff (addCore [] 0 0 5) 0 = 5 := by decide

/-- Claim C1 (amended): for a valid call `add(from, to, amount)`, the
effective value at every integer `p` with `from ≤ p ≤ to` (inclusive of
`to`) increases by `amount`, and positions outside `[from, to]` are
unchanged. -/
theorem add_eff_inclusive (m : SegMap) (f t a : Int) (_h : f ≤ t) (p : Int) :
    eff (addCore m f t a) p =
      if f ≤ p ∧ p ≤ t then eff m p + a else eff m p :=
  eff_addCore m f t a p

/-- Claim C1 witness: the amended theorem at `m = []`, `add(0, 1, 2)`,
position `0`. -/
theorem add_eff_inclusive_witness :
    (0 : Int) ≤ 1 ∧ eff (addCore [] 0 1 2) 0 =
      (if (0 : Int) ≤ 0 ∧ (0 : Int) ≤ 1 then eff ([] : SegMap) 0 + 2
       else eff ([] : SegMap) 0) :=
  ⟨by decide, add_eff_inclusive [] 0 1 2 (by decide) 0⟩

/-! ### Claim C2: effect of `set` on effective values -/

/-- Claim C2 as stated is false on the code: `set(0, 0, 7)` overwrites the
effective value at position `0`, which is `to` and lies outside the
half-open range `[0, 0)`; the loop of `set` is inclusive of `to`. -/
theorem set_changes_value_at_to :
    eff (setCore [] 0 0 7) 0 ≠ eff ([] : SegMap) 0 ∧
      eff (setCore [] 0 0 7) 0 = 7 := by decide

/-- Claim C2 (amended): for a valid call `set(from, to, amount)`, the
effective value at every integer `p` with `from ≤ p ≤ to` (inclusive of
`to`) becomes exactly `amount`, and positions outside `[from, to]` are
unchanged. -/
theorem set_eff_inclusive (m : SegMap) (f t a : Int) (_h : f ≤ t) (p : Int) :
    eff (setCore m f t a) p =
      if f ≤ p ∧ p ≤ t then a else eff m p :=
  eff_setCore m f t a p

/-- Claim C2 witness: the amended theorem at `m = []`, `set(0, 1, 7)`,
position `1`. -/
theorem set_eff_inclusive_witness :
    (0 : Int) ≤ 1 ∧ eff (setCore [] 0 1 7) 1 =
      (if (0 : Int) ≤ 1 ∧ (1 : Int) ≤ 1 then 7 else eff ([] : SegMap) 1) :=
  ⟨by decide, set_eff_inclusive [] 0 1 7 (by decide) 1⟩

/-! ### Claim C3: validation -/

/-- Claim C3: both `add` and `set` raise InvalidRange exactly when
`from > to` or a bound is not an integer (the amount is never checked),
and when they raise, the map carried at the throw is the unchanged
original: validation precedes any mutation. -/
theorem add_set_validation (m : SegMap) (f t : ℚ) (a : Int) :
    if isIntegerQ f ∧ isIntegerQ t ∧ f ≤ t then
      IntensitySegments.add m f t a = .ok (addCore m f.num t.num a) ∧
      IntensitySegments.set m f t a = .ok (setCore m f.num t.num a)
    else
      IntensitySegments.add m f t a = .error (.invalidRange, m) ∧
      IntensitySegments.set m f t a = .error (.invalidRange, m) := by
  by_cases h : isIntegerQ f ∧ isIntegerQ t ∧ f ≤ t
  · have hc : ¬ (¬ isIntegerQ f ∨ ¬ isIntegerQ t ∨ f > t) := by
      push_neg
      exact ⟨h.1, h.2.1, h.2.2⟩
    rw [if_pos h]
    constructor
    · unfold IntensitySegments.add
      rw [if_neg hc]
    · unfold IntensitySegments.set
      rw [if_neg hc]
  · have hc : ¬ isIntegerQ f ∨ ¬ isIntegerQ t ∨ f > t := by
      by_contra hcon
      push_neg at hcon
      exact h ⟨hcon.1, hcon.2.1, hcon.2.2⟩
    rw [if_neg h]
    constructor
    · unfold IntensitySegments.add
      rw [if_pos hc]
    · unfold IntensitySegments.set
      rw [if_pos hc]

/-! ### Claim C4: canonical form of the rendered sequence -/

/-- Claim C4 as stated is false on the code: the state reached from the
empty structure by the single valid call `add(0, 1, 1)` renders as
`[(0, 1), (1, 1)]`, in which the second entry's value equals the first
entry's value — no canonicalization ever runs. -/
theorem render_not_canonical :
    Reachable (addCore [] 0 1 1) ∧
      ¬ canonicalForm (renderPairs (addCore [] 0 1 1)) := by
  constructor
  · exact Reachable.addStep [] 0 1 1 Reachable.empty (by decide)
  · intro hcf
    have h1 : renderPairs (addCore [] 0 1 1) = [(0, 1), (1, 1)] := by rfl
    rw [h1] at hcf
    have h2 := hcf.1
    simp [List.chain'_cons] at h2

/-- Claim C4 (amended): after any finite sequence of valid `add`/`set`
calls from the empty structure, the rendered sequence has strictly
increasing keys; adjacent entries may repeat a value and the first value
may be 0, since the code never merges redundant entries. -/
theorem renderPairs_strictly_ascending (m : SegMap) (h : Reachable m) :
    List.Pairwise (fun p q : Int × Int => p.1 < q.1) (renderPairs m) := by
  have hk := sortedKeys_strict m (nodup_keys_of_reachable m h)
  unfold renderPairs
  exact List.Pairwise.map _ (fun a b hab => hab) hk

/-- Claim C4 witness: the amended theorem at the reachable state
`add(0, 1, 1)` applied to the empty structure. -/
theorem renderPairs_strictly_ascending_witness :
    Reachable (addCore [] 0 1 1) ∧
      List.Pairwise (fun p q : Int × Int => p.1 < q.1)
        (renderPairs (addCore [] 0 1 1)) := by
  have hr : Reachable (addCore [] 0 1 1) :=
    Reachable.addStep [] 0 1 1 Reachable.empty (by decide)
  exact ⟨hr, renderPairs_strictly_ascending (addCore [] 0 1 1) hr⟩

/-! ### Claim C5: the `add(1, 5, 10)` scenario -/

/-- Claim C5 as stated is false on the code: after `add(1, 5, 10)` on the
empty structure the output is the dense `"1: 10, 2: 10, 3: 10, 4: 10, 5: 10"`,
not the two breakpoints `{1: 10, 5: 0}`; in particular the effective value
at position `5` is `10`, not `0`. -/
theorem add_1_5_10_render_ne_breakpoints :
    IntensitySegments.toString (addCore [] 1 5 10) ≠ "1: 10, 5: 0" ∧
      eff (addCore [] 1 5 10) 5 = 10 := by decide

/-- Claim C5 (amended): on the empty structure, `add(1, 5, 10)` renders as
`"1: 10, 2: 10, 3: 10, 4: 10, 5: 10"` — one stored entry of value 10 for
every integer in the inclusive range `[1, 5]` — and the effective value is
10 exactly on `1 ≤ p ≤ 5` and 0 elsewhere. -/
theorem add_1_5_10_render_dense :
    IntensitySegments.toString (addCore [] 1 5 10) =
        "1: 10, 2: 10, 3: 10, 4: 10, 5: 10" ∧
      ∀ p : Int, eff (addCore [] 1 5 10) p =
        if 1 ≤ p ∧ p ≤ 5 then 10 else 0 := by
  constructor
  · rfl
  · intro p
    have h := eff_addCore [] 1 5 10 p
    simpa [eff, segGet] using h

/-! ### Claim C6: zero-amount `add` -/

/-- Claim C6 as stated is false on the code: on the empty structure,
`add(0, 0, 0)` changes the rendered output from `""` to `"0: 0"`, because
the loop materializes a stored entry at every visited position even when
`amount = 0`. -/
theorem add_zero_changes_render :
    IntensitySegments.toString (addCore [] 0 0 0) ≠
        IntensitySegments.toString ([] : SegMap) ∧
      IntensitySegments.toString (addCore [] 0 0 0) = "0: 0" := by decide

/-- Claim C6 (amended): a valid `add(a, b, 0)` never changes the effective
value at any position, but the rendered output may change by materializing
new explicitly-stored zero-change entries. -/
theorem add_zero_preserves_eff (m : SegMap) (f t : Int) (_h : f ≤ t)
    (p : Int) : eff (addCore m f t 0) p = eff m p := by
  rw [eff_addCore]
  by_cases h : f ≤ p ∧ p ≤ t <;> simp [h]

/-- Claim C6 witness: the amended theorem at `m = [(0, 3)]`,
`add(0, 1, 0)`, position `0`. -/
theorem add_zero_preserves_eff_witness :
    (0 : Int) ≤ 1 ∧ eff (addCore [((0 : Int), (3 : Int))] 0 1 0) 0 =
      eff [((0 : Int), (3 : Int))] 0 :=
  ⟨by decide, add_zero_preserves_eff [(0, 3)] 0 1 (by decide) 0⟩

/-! ### Claim C7: additivity of `add` -/

/-- Claim C7: on any map with unique keys (every JS `Map` state), a valid
`add(a, b, x)` followed by `add(a, b, y)` is observationally equivalent to
the single call `add(a, b, x + y)`: the rendered string and every
effective value agree. -/
theorem add_additivity (m : SegMap) (f t x y : Int)
    (hnd : (keys m).Nodup) (_h : f ≤ t) :
    IntensitySegments.toString (addCore (addCore m f t x) f t y) =
        IntensitySegments.toString (addCore m f t (x + y)) ∧
      ∀ p : Int, eff (addCore (addCore m f t x) f t y) p =
        eff (addCore m f t (x + y)) p := by
  have hget : ∀ k, segGet (addCore (addCore m f t x) f t y) k
      = segGet (addCore m f t (x + y)) k := by
    intro k
    rw [segGet_addCore, segGet_addCore, segGet_addCore]
    by_cases h : f ≤ k ∧ k ≤ t
    · rw [if_pos h, if_pos h]
      have hv : eff (addCore m f t x) k + y = eff m k + (x + y) := by
        rw [eff_addCore, if_pos h]
        ring
      rw [hv]
    · rw [if_neg h, if_neg h, if_neg h]
  constructor
  · exact toString_eq_of_segGet_eq _ _
      (nodup_keys_addCore _ f t y (nodup_keys_addCore m f t x hnd))
      (nodup_keys_addCore m f t (x + y) hnd) hget
  · intro p
    unfold eff
    rw [hget p]

/-- Claim C7 witness: the theorem at `m = []`, range `[0, 1]`, amounts
`x = 2`, `y = 3`. -/
theorem add_additivity_witness :
    ((keys ([] : SegMap)).Nodup ∧ (0 : Int) ≤ 1) ∧
      (IntensitySegments.toString (addCore (addCore [] 0 1 2) 0 1 3) =
          IntensitySegments.toString (addCore [] 0 1 (2 + 3)) ∧
        ∀ p : Int, eff (addCore (addCore [] 0 1 2) 0 1 3) p =
          eff (addCore [] 0 1 (2 + 3)) p) :=
  ⟨⟨by decide, by decide⟩, add_additivity [] 0 1 2 3 (by decide) (by decide)⟩

/-! ### Claim C8: the rendered output -/

/-- Claim C8: on any map with unique keys, `toString` is the pure join of
`"<key>: <value>"` with `", "` over the (position, value) pairs in
strictly ascending key order; the pairs listed are exactly the stored
pairs; the empty structure renders as `""`. -/
theorem toString_spec (m : SegMap) (h : (keys m).Nodup) :
    IntensitySegments.toString m =
        String.intercalate ", "
          ((renderPairs m).map
            (fun p => ToString.toString p.1 ++ ": " ++ ToString.toString p.2)) ∧
      List.Pairwise (fun p q : Int × Int => p.1 < q.1) (renderPairs m) ∧
      (∀ p : Int × Int, p ∈ renderPairs m ↔ p ∈ m) ∧
      IntensitySegments.toString ([] : SegMap) = "" := by
  refine ⟨?_, ?_, ?_, rfl⟩
  · unfold IntensitySegments.toString renderPairs
    rw [List.map_map]
    congr 1
    refine List.map_congr_left ?_
    intro k hk
    rw [mem_sortedKeys, mem_keys_iff_isSome] at hk
    unfold entryStr eff
    cases hg : segGet m k with
    | none => rw [hg] at hk; simp at hk
    | some v => simp [hg]
  · exact List.Pairwise.map _ (fun a b hab => hab) (sortedKeys_strict m h)
  · intro p
    obtain ⟨k, v⟩ := p
    constructor
    · intro hp
      unfold renderPairs at hp
      rcases List.mem_map.mp hp with ⟨k', hk', heq⟩
      have h1 : k' = k := congrArg Prod.fst heq
      have h2 : eff m k' = v := congrArg Prod.snd heq
      rw [h1] at hk' h2
      rw [mem_sortedKeys, mem_keys_iff_isSome] at hk'
      cases hg : segGet m k with
      | none => rw [hg] at hk'; simp at hk'
      | some w =>
        have hv : v = w := by
          rw [← h2]
          unfold eff
          rw [hg]
          rfl
        rw [hv]
        exact segGet_some_mem m k w hg
    · intro hp
      unfold renderPairs
      refine List.mem_map.mpr ⟨k, ?_, ?_⟩
      · rw [mem_sortedKeys]
        exact mem_keys_of_mem m k v hp
      · have hg := segGet_of_mem_nodup m k v h hp
        unfold eff
        rw [hg]
        rfl

/-- Claim C8 witness: the theorem at the one-entry map `[(0, 5)]`. -/
theorem toString_spec_witness :
    (keys [((0 : Int), (5 : Int))]).Nodup ∧
      (IntensitySegments.toString [((0 : Int), (5 : Int))] =
          String.intercalate ", "
            ((renderPairs [((0 : Int), (5 : Int))]).map
              (fun p => ToString.toString p.1 ++ ": " ++ ToString.toString p.2)) ∧
        List.Pairwise (fun p q : Int × Int => p.1 < q.1)
          (renderPairs [((0 : Int), (5 : Int))]) ∧
        (∀ p : Int × Int,
          p ∈ renderPairs [((0 : Int), (5 : Int))] ↔
            p ∈ [((0 : Int), (5 : Int))]) ∧
        IntensitySegments.toString ([] : SegMap) = "") :=
  ⟨by decide, toString_spec [(0, 5)] (by decide)⟩

/-! ### Claim C9: work is proportional to the range width -/

/-- Claim C9 as stated is false on the code: no bound in terms of the
number of breakpoints stored before the call can cap even the number of
keys stored after it — from the empty structure (0 stored breakpoints),
`add(0, n, 1)` stores `n + 1` keys, one per integer the loop visits. -/
theorem no_breakpoint_bound :
    ¬ ∃ bound : Nat → Nat, ∀ f t a : Int, f ≤ t →
        (keys (addCore ([] : SegMap) f t a)).length ≤
          bound (keys ([] : SegMap)).length := by
  rintro ⟨bound, hb⟩
  have hlen : (keys ([] : SegMap)).length = 0 := rfl
  have hle : (0 : Int) ≤ (bound 0 : Int) := Int.natCast_nonneg _
  have h := hb 0 (bound 0) 1 hle
  rw [keys_addCore_empty, length_rangeInts, hlen] at h
  omega

/-- Claim C9 (amended): each valid `add`/`set` call iterates over every
integer in the inclusive range `[from, to]` — the loop runs
`to - from + 1` iterations and stores a key at every integer it visits,
so from the empty structure the stored keys afterwards are exactly the
integers of the range; work scales with the range width, not with the
previously stored breakpoints. -/
theorem work_proportional_to_range (m : SegMap) (f t a : Int) (_h : f ≤ t) :
    (rangeInts f t).length = (t - f + 1).toNat ∧
      (∀ k : Int, f ≤ k → k ≤ t →
        k ∈ keys (addCore m f t a) ∧ k ∈ keys (setCore m f t a)) ∧
      keys (addCore ([] : SegMap) f t a) = rangeInts f t ∧
      keys (setCore ([] : SegMap) f t a) = rangeInts f t := by
  refine ⟨length_rangeInts f t, ?_, keys_addCore_empty f t a,
    keys_setCore_empty f t a⟩
  intro k h1 h2
  exact ⟨(mem_keys_addCore m f t a k).mpr (Or.inl ⟨h1, h2⟩),
    (mem_keys_setCore m f t a k).mpr (Or.inl ⟨h1, h2⟩)⟩

/-- Claim C9 witness: the amended theorem at `m = []`, range `[0, 4]`. -/
theorem work_proportional_to_range_witness :
    (0 : Int) ≤ 4 ∧
      ((rangeInts 0 4).length = ((4 : Int) - 0 + 1).toNat ∧
        (∀ k : Int, 0 ≤ k → k ≤ 4 →
          k ∈ keys (addCore [] 0 4 1) ∧ k ∈ keys (setCore [] 0 4 1)) ∧
        keys (addCore ([] : SegMap) 0 4 1) = rangeInts 0 4 ∧
        keys (setCore ([] : SegMap) 0 4 1) = rangeInts 0 4) :=
  ⟨by decide, work_proportional_to_range [] 0 4 1 (by decide)⟩

/-! ### Claim C10: keys cover the whole inclusive range and never vanish -/

/-- Claim C10: after a valid `add(from, to, amount)` or
`set(from, to, amount)`, every integer `k` with `from ≤ k ≤ to` is a
stored key, and every previously stored key is still stored — the key set
grows monotonically. -/
theorem keys_monotone_and_range_present (m : SegMap) (f t a : Int)
    (_h : f ≤ t) :
    (∀ k : Int, f ≤ k → k ≤ t →
        k ∈ keys (addCore m f t a) ∧ k ∈ keys (setCore m f t a)) ∧
      (∀ k : Int, k ∈ keys m →
        k ∈ keys (addCore m f t a) ∧ k ∈ keys (setCore m f t a)) := by
  constructor
  · intro k h1 h2
    exact ⟨(mem_keys_addCore m f t a k).mpr (Or.inl ⟨h1, h2⟩),
      (mem_keys_setCore m f t a k).mpr (Or.inl ⟨h1, h2⟩)⟩
  · intro k hk
    exact ⟨(mem_keys_addCore m f t a k).mpr (Or.inr hk),
      (mem_keys_setCore m f t a k).mpr (Or.inr hk)⟩

/-- Claim C10 witness: the theorem at `m = [(7, 1)]`, range `[0, 1]`,
amount `3`. -/
theorem keys_monotone_and_range_present_witness :
    (0 : Int) ≤ 1 ∧
      ((∀ k : Int, 0 ≤ k → k ≤ 1 →
          k ∈ keys (addCore [((7 : Int), (1 : Int))] 0 1 3) ∧
            k ∈ keys (setCore [((7 : Int), (1 : Int))] 0 1 3)) ∧
        (∀ k : Int, k ∈ keys [((7 : Int), (1 : Int))] →
          k ∈ keys (addCore [((7 : Int), (1 : Int))] 0 1 3) ∧
            k ∈ keys (setCore [((7 : Int), (1 : Int))] 0 1 3))) :=
  ⟨by decide, keys_monotone_and_range_present [(7, 1)] 0 1 3 (by decide)⟩
